import Mathlib

/-
Verification development for hslatman/ipstore (src/ipstore.go).

The Store in src/ipstore.go is a thin wrapper around a routing table
(`bart.Table`, the spec's "PrefixTrie" component): a finite map from
canonical (masked) CIDR prefixes to values, supporting insertion with
overwrite, exact get-and-delete, longest-prefix-match lookup by address
and by prefix, and a size count.  The table engine itself is not part of
src/, so its operations are modelled from the spec (§3, §4.1); the Store
methods are translated from src/ipstore.go.

Addresses and prefixes are modelled with Nat address bits at an explicit
bit width W (32 for IPv4, 128 for IPv6), host bits being cleared by
integer division/multiplication by 2 ^ (W - len).
-/

namespace IpStore

/-- Prefix (spec §3): a family bit-width `width` (W*8 in the spec's byte
terms; 32 or 128 in practice), address bits `bits`, and a prefix length
`len`.  Corresponds to Go's `netip.Prefix`. -/
structure CPrefix where
  width : Nat
  bits : Nat
  len : Nat
deriving DecidableEq, Repr

/-- Validity of a prefix: the length is within [0, width] and the address
bits fit in the width (spec §3, §4.1 edge cases). -/
def CPrefix.isValid (p : CPrefix) : Bool :=
  decide (p.len ≤ p.width) && decide (p.bits < 2 ^ p.width)

/-- Canonical (masked) form of a prefix: host bits beyond `len` are
zeroed (spec §3: "a normalized network address ... host bits beyond the
prefix length are zeroed"; `netip.Prefix.Masked`). -/
def CPrefix.masked (p : CPrefix) : CPrefix :=
  { p with bits := p.bits / 2 ^ (p.width - p.len) * 2 ^ (p.width - p.len) }

/-- Coverage: prefix `p` covers prefix `q` iff they are of the same
family, `p` is at most as long as `q`, and the top `p.len` bits agree
(spec glossary: "Supernet / ancestor"). -/
def CPrefix.covers (p q : CPrefix) : Bool :=
  p.width == q.width && decide (p.len ≤ q.len)
    && (p.bits / 2 ^ (p.width - p.len) == q.bits / 2 ^ (p.width - p.len))

/-- Address (Go's `netip.Addr`): a family bit-width and the address bits. -/
structure Addr where
  width : Nat
  bits : Nat
deriving DecidableEq, Repr

/-- The maximal-length prefix of an address: `key.Prefix(key.BitLen())`
in src/ipstore.go (spec §4.2: "normalizes an address to its
maximal-length prefix (length = W*8)"). -/
def Addr.maxPrefix (a : Addr) : CPrefix :=
  ⟨a.width, a.bits, a.width⟩

/-- Modelled from the spec: the PrefixTrie table (`bart.Table`, spec
§4.1) behaves as a finite map from canonical prefixes to values; we
embed it as an association list whose keys are masked prefixes. -/
abbrev Table (V : Type) : Type := List (CPrefix × V)

/-- Modelled from the spec: `Size` (spec §4.1) — the number of stored
prefixes. -/
def Table.size {V : Type} (t : Table V) : Nat :=
  List.length t

/-- Modelled from the spec: `Insert(prefix, value)` (spec §4.1) — the key
is canonicalized; an already-present prefix has its value overwritten
(last-write-wins), otherwise a new entry is added. -/
def Table.insert {V : Type} (t : Table V) (p : CPrefix) (v : V) : Table V :=
  let k := p.masked
  if List.any t (fun e => e.1 == k) then
    List.map (fun e => if e.1 == k then (k, v) else e) t
  else
    List.append t [(k, v)]

/-- Modelled from the spec: `LookupExact(prefix)` (spec §4.1) — succeeds
only on a stored entry at exactly the canonical form of the query. -/
def Table.getExact {V : Type} (t : Table V) (p : CPrefix) : Option V :=
  Option.map (fun e => e.2) (List.find? (fun e => e.1 == p.masked) t)

/-- Modelled from the spec: `Delete(prefix)` combined with the exact
lookup (`bart.Table.GetAndDelete` used in src/ipstore.go line 85):
returns the stored value at the canonical query key, if any, together
with the table with that entry removed; an absent key leaves the table
unchanged. -/
def Table.getAndDelete {V : Type} (t : Table V) (p : CPrefix) :
    Option V × Table V :=
  let k := p.masked
  match List.find? (fun e => e.1 == k) t with
  | none => (none, t)
  | some e => (some e.2, List.filter (fun e2 => !(e2.1 == k)) t)

/-- One step of the longest-prefix-match selection: keep the entry with
the strictly greater prefix length (spec §4.1 `LookupLongestPrefix`:
"a deeper, i.e. longer, match always overrides a shallower one"). -/
def bmStep {V : Type} (best : Option (CPrefix × V)) (e : CPrefix × V) :
    Option (CPrefix × V) :=
  match best with
  | none => some e
  | some b => if b.1.len < e.1.len then some e else some b

/-- The best (longest) entry of a list of candidate matches. -/
def bestMatch {V : Type} (l : List (CPrefix × V)) : Option (CPrefix × V) :=
  List.foldl bmStep none l

/-- Modelled from the spec: `LookupLongestPrefix(prefix)` (spec §4.1,
`bart.Table.LookupPrefix`): among the stored entries covering the
canonical query prefix, the one of maximal length, or none. -/
def Table.lookupPrefix {V : Type} (t : Table V) (q : CPrefix) :
    Option (CPrefix × V) :=
  bestMatch (List.filter (fun e => e.1.covers q.masked) t)

/-- Modelled from the spec: `LookupLongestPrefix(address)` (spec §4.1,
`bart.Table.Lookup`): the query address is taken at its maximal prefix
length. -/
def Table.lookupAddr {V : Type} (t : Table V) (a : Addr) :
    Option (CPrefix × V) :=
  Table.lookupPrefix t a.maxPrefix

/-- Well-formedness invariant of a reachable table: keys are pairwise
distinct and canonical (spec §3: "at most one Entry exists per distinct
Prefix"). -/
def Table.WF {V : Type} (t : Table V) : Prop :=
  List.Nodup (List.map (fun e => e.1) t) ∧ ∀ e ∈ t, CPrefix.masked e.1 = e.1

instance {V : Type} (t : Table V) : Decidable (Table.WF t) :=
  inferInstanceAs (Decidable
    (List.Nodup (List.map (fun e : CPrefix × V => e.1) t)
      ∧ ∀ e ∈ t, CPrefix.masked e.1 = e.1))

/-- Store (src/ipstore.go lines 25-28): a wrapper around one table.  The
`sync.RWMutex` field has no computational content and is not modelled. -/
structure Store (V : Type) where
  table : Table V

/-- New (src/ipstore.go lines 35-40): an empty store. -/
def Store.NewStore {V : Type} : Store V :=
  ⟨[]⟩

/-- AddCIDR (src/ipstore.go lines 53-62): inserts under the prefix key
and returns a nil error.  The first component models the returned
`error` (`none` = nil). -/
def Store.AddCIDR {V : Type} (s : Store V) (key : CPrefix) (value : V) :
    Option Unit × Store V :=
  (none, ⟨Table.insert s.table key value⟩)

/-- Add (src/ipstore.go lines 43-50): converts the address to its
maximal-length prefix and delegates to AddCIDR.  `key.Prefix(key.BitLen())`
cannot fail on the structured addresses modelled here, so no error path
arises. -/
def Store.Add {V : Type} (s : Store V) (key : Addr) (value : V) :
    Option Unit × Store V :=
  Store.AddCIDR s key.maxPrefix value

/-- RemoveCIDR (src/ipstore.go lines 81-91): get-and-delete at the
prefix key; on absence returns `zero[V]()` (here the explicit `zeroV`
argument) with a nil error.  Result: (returned value, returned error,
store afterwards). -/
def Store.RemoveCIDR {V : Type} (s : Store V) (zeroV : V) (key : CPrefix) :
    V × Option Unit × Store V :=
  match Table.getAndDelete s.table key with
  | (none, t) => (zeroV, none, ⟨t⟩)
  | (some v, t) => (v, none, ⟨t⟩)

/-- Remove (src/ipstore.go lines 71-78): converts the address to its
maximal-length prefix and delegates to RemoveCIDR. -/
def Store.Remove {V : Type} (s : Store V) (zeroV : V) (key : Addr) :
    V × Option Unit × Store V :=
  Store.RemoveCIDR s zeroV key.maxPrefix

/-- AddIPOrCIDR (src/ipstore.go lines 65-68): an unimplemented stub —
`// TODO: implementation` — that returns a nil error and does not touch
the table. -/
def Store.AddIPOrCIDR {V : Type} (s : Store V) (ipOrCIDR : String)
    (value : V) : Option Unit × Store V :=
  (none, s)

/-- RemoveIPOrCIDR (src/ipstore.go lines 94-97): an unimplemented stub —
`// TODO: implementation` — that returns `(nil, nil)` (modelled as two
`none`s) and does not touch the table. -/
def Store.RemoveIPOrCIDR {V A : Type} (s : Store V) (ipOrCIDR : String)
    (value : A) : Option Unit × Option Unit × Store V :=
  (none, none, s)

/-- Contains (src/ipstore.go lines 100-107): a longest-prefix-match
lookup by address; true iff some entry covers the address.  Second
component models the returned `error` (always nil). -/
def Store.Contains {V : Type} (s : Store V) (ip : Addr) :
    Bool × Option Unit :=
  ((Table.lookupAddr s.table ip).isSome, none)

/-- Get (src/ipstore.go lines 112-143): a single longest-prefix-match
lookup by address; the one matched value is wrapped in a singleton
slice, or nil (empty list) with a nil error when nothing covers the
address.  The commented-out multi-result code in the source is dead and
not modelled. -/
def Store.Get {V : Type} (s : Store V) (key : Addr) :
    List V × Option Unit :=
  match Table.lookupAddr s.table key with
  | none => ([], none)
  | some e => ([e.2], none)

/-- GetCIDR (src/ipstore.go lines 146-200): a single longest-prefix-match
lookup by prefix; the one matched value is wrapped in a singleton slice,
or nil (empty list) with a nil error when nothing covers the prefix. -/
def Store.GetCIDR {V : Type} (s : Store V) (key : CPrefix) :
    List V × Option Unit :=
  match Table.lookupPrefix s.table key with
  | none => ([], none)
  | some e => ([e.2], none)

/-- Len (src/ipstore.go lines 203-208): the table size. -/
def Store.Len {V : Type} (s : Store V) : Nat :=
  Table.size s.table

/-! Basic facts about masking and coverage. -/

theorem covers_iff (p q : CPrefix) :
    CPrefix.covers p q = true ↔
      p.width = q.width ∧ p.len ≤ q.len ∧
        p.bits / 2 ^ (p.width - p.len) = q.bits / 2 ^ (p.width - p.len) := by
  simp [CPrefix.covers, and_assoc]

theorem masked_len (p : CPrefix) : p.masked.len = p.len := rfl

theorem masked_width (p : CPrefix) : p.masked.width = p.width := rfl

theorem masked_bits (p : CPrefix) :
    p.masked.bits = p.bits / 2 ^ (p.width - p.len) * 2 ^ (p.width - p.len) := rfl

theorem masked_masked (p : CPrefix) : p.masked.masked = p.masked := by
  have hpos : 0 < 2 ^ (p.width - p.len) := Nat.pos_pow_of_pos _ (by omega)
  show CPrefix.mk _ _ _ = CPrefix.mk _ _ _
  simp only [CPrefix.masked]
  congr 1
  exact congrArg (· * 2 ^ (p.width - p.len))
    (Nat.mul_div_cancel (p.bits / 2 ^ (p.width - p.len)) hpos)

theorem covers_refl (p : CPrefix) : CPrefix.covers p p = true := by
  simp [CPrefix.covers]

theorem masked_maxPrefix (a : Addr) : (a.maxPrefix).masked = a.maxPrefix := by
  show CPrefix.mk _ _ _ = CPrefix.mk _ _ _
  simp [CPrefix.masked, Addr.maxPrefix, Nat.sub_self]

/-- Two canonical prefixes of equal length that cover one another are
equal. -/
theorem covers_eq_of_len_eq (p q : CPrefix) (hp : p.masked = p)
    (hq : q.masked = q) (hc : CPrefix.covers p q = true) (hl : p.len = q.len) :
    p = q := by
  rcases (covers_iff p q).1 hc with ⟨hw, _, hb⟩
  have hpb : p.bits / 2 ^ (p.width - p.len) * 2 ^ (p.width - p.len) = p.bits := by
    have := congrArg CPrefix.bits hp
    simpa [CPrefix.masked] using this
  have hqb : q.bits / 2 ^ (q.width - q.len) * 2 ^ (q.width - q.len) = q.bits := by
    have := congrArg CPrefix.bits hq
    simpa [CPrefix.masked] using this
  have hbits : p.bits = q.bits := by
    rw [← hpb, ← hqb, ← hw, ← hl, hb]
  cases p; cases q
  simp_all

/-! Facts about the longest-prefix-match fold. -/

theorem foldl_bmStep_isSome {V : Type} :
    ∀ (l : List (CPrefix × V)) (b : CPrefix × V),
      (List.foldl bmStep (some b) l).isSome = true := by
  intro l
  induction l with
  | nil => intro b; rfl
  | cons e l ih =>
    intro b
    simp only [List.foldl_cons, bmStep]
    by_cases h : b.1.len < e.1.len
    · rw [if_pos h]; exact ih e
    · rw [if_neg h]; exact ih b

theorem bestMatch_isSome_of_ne_nil {V : Type} (l : List (CPrefix × V))
    (h : l ≠ []) : (bestMatch l).isSome = true := by
  match l with
  | [] => exact absurd rfl h
  | e :: l => exact foldl_bmStep_isSome l e

theorem foldl_bmStep_keep {V : Type} :
    ∀ (l : List (CPrefix × V)) (b : CPrefix × V),
      (∀ e ∈ l, e.1.len ≤ b.1.len) →
        List.foldl bmStep (some b) l = some b := by
  intro l
  induction l with
  | nil => intro b _; rfl
  | cons e l ih =>
    intro b hb
    have hle : e.1.len ≤ b.1.len := hb e (List.mem_cons_self e l)
    simp only [List.foldl_cons, bmStep, if_neg (Nat.not_lt.mpr hle)]
    exact ih b (fun e' he' => hb e' (List.mem_cons_of_mem e he'))

theorem foldl_bmStep_install {V : Type} :
    ∀ (l : List (CPrefix × V)) (b r : CPrefix × V), r ∈ l →
      (∀ e ∈ l, e.1.len ≤ r.1.len) →
      (∀ e ∈ l, e.1.len = r.1.len → e = r) →
      b.1.len < r.1.len →
        List.foldl bmStep (some b) l = some r := by
  intro l
  induction l with
  | nil => intro b r hmem; exact absurd hmem (List.not_mem_nil r)
  | cons e l ih =>
    intro b r hmem hb hu hlt
    by_cases he : e = r
    · subst he
      simp only [List.foldl_cons, bmStep, if_pos hlt]
      exact foldl_bmStep_keep l e (fun e' he' => hb e' (List.mem_cons_of_mem e he'))
    · have hrl : r ∈ l := by
        rcases List.mem_cons.1 hmem with h | h
        · exact absurd h.symm he
        · exact h
      have helt : e.1.len < r.1.len := by
        have hle : e.1.len ≤ r.1.len := hb e (List.mem_cons_self e l)
        rcases Nat.lt_or_ge e.1.len r.1.len with h | h
        · exact h
        · exact absurd (hu e (List.mem_cons_self e l) (Nat.le_antisymm hle h)) he
      simp only [List.foldl_cons, bmStep]
      by_cases hbe : b.1.len < e.1.len
      · rw [if_pos hbe]
        exact ih e r hrl (fun e' he' => hb e' (List.mem_cons_of_mem e he'))
          (fun e' he' => hu e' (List.mem_cons_of_mem e he')) helt
      · rw [if_neg hbe]
        exact ih b r hrl (fun e' he' => hb e' (List.mem_cons_of_mem e he'))
          (fun e' he' => hu e' (List.mem_cons_of_mem e he')) hlt

/-- The fold returns the unique maximal-length element when one exists. -/
theorem bestMatch_eq {V : Type} (l : List (CPrefix × V)) (r : CPrefix × V)
    (hmem : r ∈ l) (hb : ∀ e ∈ l, e.1.len ≤ r.1.len)
    (hu : ∀ e ∈ l, e.1.len = r.1.len → e = r) :
    bestMatch l = some r := by
  match l with
  | [] => exact absurd hmem (List.not_mem_nil r)
  | e :: l =>
    show List.foldl bmStep (bmStep none e) l = some r
    by_cases he : e = r
    · subst he
      exact foldl_bmStep_keep l e (fun e' he' => hb e' (List.mem_cons_of_mem e he'))
    · have hrl : r ∈ l := by
        rcases List.mem_cons.1 hmem with h | h
        · exact absurd h.symm he
        · exact h
      have helt : e.1.len < r.1.len := by
        have hle : e.1.len ≤ r.1.len := hb e (List.mem_cons_self e l)
        rcases Nat.lt_or_ge e.1.len r.1.len with h | h
        · exact h
        · exact absurd (hu e (List.mem_cons_self e l) (Nat.le_antisymm hle h)) he
      exact foldl_bmStep_install l e r hrl
        (fun e' he' => hb e' (List.mem_cons_of_mem e he'))
        (fun e' he' => hu e' (List.mem_cons_of_mem e he')) helt

/-! Facts about insertion. -/

theorem insert_mem {V : Type} (t : Table V) (p : CPrefix) (v : V) :
    (p.masked, v) ∈ Table.insert t p v := by
  simp only [Table.insert]
  by_cases h : List.any t (fun e => e.1 == p.masked) = true
  · rw [if_pos h]
    rcases List.any_eq_true.1 h with ⟨e, hmem, hkey⟩
    refine List.mem_map.2 ⟨e, hmem, ?_⟩
    rw [if_pos hkey]
  · rw [if_neg h]
    exact List.mem_append_right t (List.mem_singleton.2 rfl)

theorem insert_entry_eq {V : Type} (t : Table V) (p : CPrefix) (v : V)
    (e : CPrefix × V) (hmem : e ∈ Table.insert t p v)
    (hkey : e.1 = p.masked) : e = (p.masked, v) := by
  simp only [Table.insert] at hmem
  by_cases h : List.any t (fun e => e.1 == p.masked) = true
  · rw [if_pos h] at hmem
    rcases List.mem_map.1 hmem with ⟨a, _, hfa⟩
    by_cases ha : a.1 == p.masked
    · rw [if_pos ha] at hfa; exact hfa.symm
    · rw [if_neg ha] at hfa
      rw [← hfa] at hkey
      exact absurd (beq_iff_eq.2 hkey) ha
  · rw [if_neg h] at hmem
    rcases List.mem_append.1 hmem with hm | hm
    · have hb : (e.1 == p.masked) = true := beq_iff_eq.2 hkey
      exact absurd (List.any_eq_true.2 ⟨e, hm, hb⟩) h
    · exact List.mem_singleton.1 hm

theorem insert_keys_masked {V : Type} (t : Table V) (p : CPrefix) (v : V)
    (h : ∀ e ∈ t, CPrefix.masked e.1 = e.1) :
    ∀ e ∈ Table.insert t p v, CPrefix.masked e.1 = e.1 := by
  intro e hmem
  simp only [Table.insert] at hmem
  by_cases hany : List.any t (fun e => e.1 == p.masked) = true
  · rw [if_pos hany] at hmem
    rcases List.mem_map.1 hmem with ⟨a, ha, hfa⟩
    by_cases hak : a.1 == p.masked
    · rw [if_pos hak] at hfa
      rw [← hfa]
      exact masked_masked p
    · rw [if_neg hak] at hfa
      rw [← hfa]
      exact h a ha
  · rw [if_neg hany] at hmem
    rcases List.mem_append.1 hmem with hm | hm
    · exact h e hm
    · rw [List.mem_singleton.1 hm]
      exact masked_masked p

theorem insert_size_of_key_mem {V : Type} (t : Table V) (p : CPrefix) (v : V)
    (h : ∃ e ∈ t, e.1 = p.masked) :
    Table.size (Table.insert t p v) = Table.size t := by
  have hany : List.any t (fun e => e.1 == p.masked) = true := by
    rcases h with ⟨e, hmem, hkey⟩
    exact List.any_eq_true.2 ⟨e, hmem, beq_iff_eq.2 hkey⟩
  simp only [Table.insert, Table.size, if_pos hany, List.length_map]

theorem insert_keys_nodup {V : Type} (t : Table V) (p : CPrefix) (v : V)
    (h : List.Nodup (List.map (fun e => e.1) t)) :
    List.Nodup (List.map (fun e => e.1) (Table.insert t p v)) := by
  simp only [Table.insert]
  by_cases hany : List.any t (fun e => e.1 == p.masked) = true
  · rw [if_pos hany]
    have hkeys : List.map (fun e => e.1)
        (List.map (fun e => if e.1 == p.masked then (p.masked, v) else e) t)
          = List.map (fun e => e.1) t := by
      rw [List.map_map]
      refine List.map_congr_left ?_
      intro a _
      by_cases hak : a.1 == p.masked
      · simp only [Function.comp, if_pos hak]
        exact (beq_iff_eq.1 hak).symm
      · simp only [Function.comp, if_neg hak]
    rw [hkeys]
    exact h
  · rw [if_neg hany]
    rw [List.append_eq, List.map_append]
    refine List.Nodup.append h (List.nodup_singleton _) ?_
    intro k hk1 hk2
    rcases List.mem_map.1 hk1 with ⟨e, hmem, hke⟩
    have hkp : k = p.masked := by
      simpa using hk2
    apply hany
    exact List.any_eq_true.2 ⟨e, hmem, beq_iff_eq.2 (hke.trans hkp)⟩

theorem WF_insert {V : Type} (t : Table V) (p : CPrefix) (v : V)
    (h : Table.WF t) : Table.WF (Table.insert t p v) :=
  ⟨insert_keys_nodup t p v h.1, insert_keys_masked t p v h.2⟩

/-- After inserting prefix `p` with value `v` into a table whose keys
are canonical, the longest-prefix-match lookup at `p` finds exactly the
new entry: `p` itself is its own longest covering prefix. -/
theorem lookupPrefix_insert {V : Type} (t : Table V) (p : CPrefix) (v : V)
    (hm : ∀ e ∈ t, CPrefix.masked e.1 = e.1) :
    Table.lookupPrefix (Table.insert t p v) p = some (p.masked, v) := by
  apply bestMatch_eq
  · refine List.mem_filter.2 ⟨insert_mem t p v, ?_⟩
    exact covers_refl p.masked
  · intro e he
    have hcov := (List.mem_filter.1 he).2
    have := (covers_iff _ _).1 hcov
    exact this.2.1
  · intro e he hlen
    have hmem := (List.mem_filter.1 he).1
    have hcov := (List.mem_filter.1 he).2
    have hem : CPrefix.masked e.1 = e.1 := insert_keys_masked t p v hm e hmem
    have hkey : e.1 = p.masked := by
      apply covers_eq_of_len_eq e.1 p.masked hem (masked_masked p) hcov
      exact hlen
    have := insert_entry_eq t p v e hmem hkey
    rw [this]

/-! Facts about deletion. -/

theorem find?_of_nodup {V : Type} :
    ∀ (t : Table V) (k : CPrefix) (v : V),
      List.Nodup (List.map (fun e => e.1) t) → (k, v) ∈ t →
        List.find? (fun e => e.1 == k) t = some (k, v) := by
  intro t
  induction t with
  | nil => intro k v _ hmem; exact absurd hmem (List.not_mem_nil _)
  | cons e l ih =>
    intro k v hnd hmem
    rcases List.mem_cons.1 hmem with hm | hm
    · rw [← hm]
      exact List.find?_cons_of_pos l (beq_iff_eq.2 rfl)
    · have hne : ¬(e.1 == k) = true := by
        intro hek
        have hk : k ∈ List.map (fun e => e.1) l :=
          List.mem_map.2 ⟨(k, v), hm, rfl⟩
        have : e.1 ∉ List.map (fun e => e.1) l :=
          (List.nodup_cons.1 hnd).1
        rw [beq_iff_eq.1 hek] at this
        exact this hk
      rw [List.find?_cons_of_neg l hne]
      exact ih k v (List.nodup_cons.1 hnd).2 hm

theorem filter_ne_length {V : Type} :
    ∀ (t : Table V) (k : CPrefix),
      List.Nodup (List.map (fun e => e.1) t) →
      k ∈ List.map (fun e => e.1) t →
        List.length (List.filter (fun e2 => !(e2.1 == k)) t) + 1
          = List.length t := by
  intro t
  induction t with
  | nil => intro k _ hk; exact absurd hk (List.not_mem_nil _)
  | cons e l ih =>
    intro k hnd hk
    by_cases hek : e.1 = k
    · have hkeep : List.filter (fun e2 => !(e2.1 == k)) l = l := by
        refine List.filter_eq_self.2 ?_
        intro a ha
        have hak : a.1 ≠ k := by
          intro hak
          have hk' : k ∈ List.map (fun e => e.1) l :=
            List.mem_map.2 ⟨a, ha, hak⟩
          have hni : e.1 ∉ List.map (fun e => e.1) l := (List.nodup_cons.1 hnd).1
          rw [hek] at hni
          exact hni hk'
        simp [hak]
      rw [List.filter_cons, if_neg (by simp [hek]), hkeep, List.length_cons]
    · have hk' : k ∈ List.map (fun e => e.1) l := by
        rcases List.mem_map.1 hk with ⟨a, ha, hak⟩
        rcases List.mem_cons.1 ha with h | h
        · rw [h] at hak; exact absurd hak hek
        · exact List.mem_map.2 ⟨a, h, hak⟩
      rw [List.filter_cons, if_pos (by simp [hek]), List.length_cons,
        List.length_cons, ih k (List.nodup_cons.1 hnd).2 hk']

/-- Removing an absent key (src/ipstore.go lines 85-88: `if !ok`) returns
the zero value with a nil error and leaves the store unchanged. -/
theorem removeCIDR_absent {V : Type} (s : Store V) (zeroV : V) (P : CPrefix)
    (h : Table.getExact s.table P = none) :
    Store.RemoveCIDR s zeroV P = (zeroV, none, s) := by
  have hfind : List.find? (fun e => e.1 == P.masked) s.table = none := by
    simp only [Table.getExact] at h
    cases hf : List.find? (fun e => e.1 == P.masked) s.table with
    | none => rfl
    | some e => rw [hf] at h; exact absurd h (by simp)
  simp only [Store.RemoveCIDR, Table.getAndDelete, hfind]

/-! Concrete stores for the spec's scenarios (spec §8). -/

/-- The address 127.0.0.1 (= 127*2^24 + 1). -/
def ip127 : Addr := ⟨32, 2130706433⟩

/-- Scenario 1 store: 127.0.0.1/32→"A", 127.0.0.0/24→"B",
127.0.0.0/16→"C". -/
def c1Store : Store String :=
  (Store.AddCIDR (Store.AddCIDR (Store.AddCIDR Store.NewStore
    ⟨32, 2130706433, 32⟩ "A").2 ⟨32, 2130706432, 24⟩ "B").2
    ⟨32, 2130706432, 16⟩ "C").2

/-- Scenario 2 store: 192.168.0.1/24→"X" (192.168.0.1 = 3232235521) and
192.168.1.1/23→"Y" (192.168.1.1 = 3232235777). -/
def c2Store : Store String :=
  (Store.AddCIDR (Store.AddCIDR Store.NewStore
    ⟨32, 3232235521, 24⟩ "X").2 ⟨32, 3232235777, 23⟩ "Y").2

/-- The prefix 127.0.0.0/24 used as the removal key in the C6
counterexample. -/
def c6Key : CPrefix := ⟨32, 2130706432, 24⟩

/-- A store without the C6 key. -/
def c6AbsentStore : Store Nat := ⟨[]⟩

/-- A store holding the C6 key with value 0 — the zero value of the
element type `int`. -/
def c6ZeroStore : Store Nat := ⟨[(⟨32, 2130706432, 24⟩, 0)]⟩

/-! The claims. -/

/-- C1: the spec claims `Get(A)` returns the ordered list of all stored
entries covering `A`, most specific first — on scenario 1 the three
values ["A","B","C"].  The code (src/ipstore.go lines 112-143) performs
a single longest-prefix-match and wraps only that one value, so
`Get(127.0.0.1)` on the scenario-1 store returns ["A"], not
["A","B","C"] (the repository's own test TestGetMultipleResults expects
three results).  This theorem evaluates the embedded code at the
failing input. -/
theorem C1_get_returns_single_lpm_not_all_ancestors :
    (Store.Get c1Store ip127).1 = ["A"]
    ∧ Store.Len c1Store = 3
    ∧ (Store.Get c1Store ip127).1 ≠ ["A", "B", "C"] := by
  refine ⟨by decide, by decide, by decide⟩

/-- C2: the spec claims `GetCIDR(Q)` returns every stored entry equal to
or covering `Q`, most specific first — on scenario 2,
`GetCIDR(192.168.0.1/24)` = ["X","Y"].  The code (src/ipstore.go lines
146-200) performs a single longest-prefix-match and wraps only that one
value, so it returns ["X"], not ["X","Y"] (the repository's own test
TestGetMultipleResults expects two results from GetCIDR).  The second
query `GetCIDR(192.168.1.1/23)` = ["Y"] does match the claim.  This
theorem evaluates the embedded code at the failing input. -/
theorem C2_getcidr_returns_single_lpm_not_all_ancestors :
    (Store.GetCIDR c2Store ⟨32, 3232235521, 24⟩).1 = ["X"]
    ∧ (Store.GetCIDR c2Store ⟨32, 3232235521, 24⟩).1 ≠ ["X", "Y"]
    ∧ (Store.GetCIDR c2Store ⟨32, 3232235777, 23⟩).1 = ["Y"] := by
  refine ⟨by decide, by decide, by decide⟩

/-- C3 (round-trip): on any well-formed store, inserting prefix `P` with
value `v` and then looking `P` up with GetCIDR yields `v` as the first
element of the result — the freshly inserted exact entry is its own
longest covering prefix. -/
theorem C3_roundtrip_insert_then_getcidr {V : Type} (s : Store V)
    (P : CPrefix) (v : V) (hWF : Table.WF s.table)
    (hP : CPrefix.isValid P = true) :
    List.head? (Store.GetCIDR (Store.AddCIDR s P v).2 P).1 = some v := by
  show List.head? (Store.GetCIDR ⟨Table.insert s.table P v⟩ P).1 = some v
  simp only [Store.GetCIDR, lookupPrefix_insert s.table P v hWF.2]
  rfl

/-- Witness for C3 at a concrete input: inserting 127.0.0.0/24 → 7 into
the empty store and reading it back. -/
theorem C3_roundtrip_insert_then_getcidr_witness :
    List.head? (Store.GetCIDR
      (Store.AddCIDR (Store.NewStore : Store Nat) ⟨32, 2130706432, 24⟩ 7).2
      ⟨32, 2130706432, 24⟩).1 = some 7 :=
  C3_roundtrip_insert_then_getcidr Store.NewStore ⟨32, 2130706432, 24⟩ 7
    (by decide) (by decide)

/-- C4 (overwrite, last-write-wins): inserting the same prefix twice
with two values leaves Len unchanged relative to the first insert, and
GetCIDR of that prefix afterwards returns exactly the second value as a
single entry. -/
theorem C4_overwrite_last_write_wins {V : Type} (s : Store V)
    (P : CPrefix) (v1 v2 : V) (hWF : Table.WF s.table) (hne : v1 ≠ v2) :
    Store.Len (Store.AddCIDR (Store.AddCIDR s P v1).2 P v2).2
        = Store.Len (Store.AddCIDR s P v1).2
    ∧ (Store.GetCIDR (Store.AddCIDR (Store.AddCIDR s P v1).2 P v2).2 P).1
        = [v2] := by
  constructor
  · show Table.size (Table.insert (Table.insert s.table P v1) P v2)
        = Table.size (Table.insert s.table P v1)
    exact insert_size_of_key_mem _ P v2
      ⟨(P.masked, v1), insert_mem s.table P v1, rfl⟩
  · show (Store.GetCIDR ⟨Table.insert (Table.insert s.table P v1) P v2⟩ P).1
        = [v2]
    simp only [Store.GetCIDR,
      lookupPrefix_insert _ P v2 (insert_keys_masked s.table P v1 hWF.2)]

/-- Witness for C4 at a concrete input: inserting 127.0.0.0/24 → 1 then
127.0.0.0/24 → 2 into the empty store. -/
theorem C4_overwrite_last_write_wins_witness :
    Store.Len (Store.AddCIDR (Store.AddCIDR (Store.NewStore : Store Nat)
        ⟨32, 2130706432, 24⟩ 1).2 ⟨32, 2130706432, 24⟩ 2).2
      = Store.Len (Store.AddCIDR (Store.NewStore : Store Nat)
        ⟨32, 2130706432, 24⟩ 1).2
    ∧ (Store.GetCIDR (Store.AddCIDR (Store.AddCIDR
        (Store.NewStore : Store Nat) ⟨32, 2130706432, 24⟩ 1).2
        ⟨32, 2130706432, 24⟩ 2).2 ⟨32, 2130706432, 24⟩).1 = [2] :=
  C4_overwrite_last_write_wins Store.NewStore ⟨32, 2130706432, 24⟩ 1 2
    (by decide) (by decide)

/-- C5 (delete correctness): removing a present prefix returns exactly
the stored value with no error path taken, makes a subsequent exact
lookup report not-found, shrinks Len by exactly one, and destroys no
entry stored under any other prefix. -/
theorem C5_delete_correctness {V : Type} (s : Store V) (zeroV : V)
    (P : CPrefix) (v : V) (hWF : Table.WF s.table)
    (hmem : (P.masked, v) ∈ s.table) :
    (Store.RemoveCIDR s zeroV P).1 = v
    ∧ Table.getExact (Store.RemoveCIDR s zeroV P).2.2.table P = none
    ∧ Store.Len (Store.RemoveCIDR s zeroV P).2.2 + 1 = Store.Len s
    ∧ ∀ e ∈ s.table, e.1 ≠ P.masked →
        e ∈ (Store.RemoveCIDR s zeroV P).2.2.table := by
  have hfind : List.find? (fun e => e.1 == P.masked) s.table
      = some (P.masked, v) :=
    find?_of_nodup s.table P.masked v hWF.1 hmem
  have hrem : Store.RemoveCIDR s zeroV P
      = (v, none, ⟨List.filter (fun e2 => !(e2.1 == P.masked)) s.table⟩) := by
    simp only [Store.RemoveCIDR, Table.getAndDelete, hfind]
  rw [hrem]
  refine ⟨rfl, ?_, ?_, ?_⟩
  · have hnone : List.find? (fun e => e.1 == P.masked)
        (List.filter (fun e2 => !(e2.1 == P.masked)) s.table) = none := by
      refine List.find?_eq_none.2 ?_
      intro x hx
      have hne := (List.mem_filter.1 hx).2
      simp only [Bool.not_eq_eq_eq_not, Bool.not_true] at hne
      simp [hne]
    simp [Table.getExact, hnone]
  · show List.length (List.filter (fun e2 => !(e2.1 == P.masked)) s.table) + 1
        = List.length s.table
    exact filter_ne_length s.table P.masked hWF.1
      (List.mem_map.2 ⟨(P.masked, v), hmem, rfl⟩)
  · intro e he hne
    exact List.mem_filter.2 ⟨he, by simp [hne]⟩

/-- Witness for C5 at a concrete input: removing 127.0.0.0/24 from a
two-entry store. -/
theorem C5_delete_correctness_witness :
    (Store.RemoveCIDR (⟨[(⟨32, 2130706432, 24⟩, 1), (⟨32, 2130706432, 16⟩, 2)]⟩ : Store Nat)
        0 ⟨32, 2130706432, 24⟩).1 = 1
    ∧ Table.getExact (Store.RemoveCIDR
        (⟨[(⟨32, 2130706432, 24⟩, 1), (⟨32, 2130706432, 16⟩, 2)]⟩ : Store Nat)
        0 ⟨32, 2130706432, 24⟩).2.2.table ⟨32, 2130706432, 24⟩ = none
    ∧ Store.Len (Store.RemoveCIDR
        (⟨[(⟨32, 2130706432, 24⟩, 1), (⟨32, 2130706432, 16⟩, 2)]⟩ : Store Nat)
        0 ⟨32, 2130706432, 24⟩).2.2 + 1
      = Store.Len (⟨[(⟨32, 2130706432, 24⟩, 1), (⟨32, 2130706432, 16⟩, 2)]⟩ : Store Nat)
    ∧ ∀ e ∈ (⟨[(⟨32, 2130706432, 24⟩, 1), (⟨32, 2130706432, 16⟩, 2)]⟩ : Store Nat).table,
        e.1 ≠ CPrefix.masked ⟨32, 2130706432, 24⟩ →
          e ∈ (Store.RemoveCIDR
            (⟨[(⟨32, 2130706432, 24⟩, 1), (⟨32, 2130706432, 16⟩, 2)]⟩ : Store Nat)
            0 ⟨32, 2130706432, 24⟩).2.2.table :=
  C5_delete_correctness
    (⟨[(⟨32, 2130706432, 24⟩, 1), (⟨32, 2130706432, 16⟩, 2)]⟩ : Store Nat)
    0 ⟨32, 2130706432, 24⟩ 1 (by decide) (by decide)

/-- C6 counterexample: the claim says RemoveCIDR on an absent key
returns a "not present" indication — a presence signal distinguishing
absence from a removed value.  It does not: with element type `int`
(zero value 0), removing 127.0.0.0/24 from a store that does not hold it
and from a store that holds it with value 0 produces bit-for-bit the
same observable result pair (0, nil), while presence differs. -/
theorem C6_no_presence_signal_counterexample :
    ((Store.RemoveCIDR c6AbsentStore 0 c6Key).1,
        (Store.RemoveCIDR c6AbsentStore 0 c6Key).2.1)
      = ((Store.RemoveCIDR c6ZeroStore 0 c6Key).1,
        (Store.RemoveCIDR c6ZeroStore 0 c6Key).2.1)
    ∧ Table.getExact c6AbsentStore.table c6Key = none
    ∧ Table.getExact c6ZeroStore.table c6Key = some 0 := by
  refine ⟨by decide, by decide, by decide⟩

/-- C6 amended: removal of a non-existent key is not an error — it
returns the zero value of the element type with a nil error and leaves
the store unchanged; no presence signal is produced. -/
theorem C6_remove_absent_not_error_store_unchanged {V : Type}
    (s : Store V) (zeroV : V) (P : CPrefix)
    (h : Table.getExact s.table P = none) :
    Store.RemoveCIDR s zeroV P = (zeroV, none, s) :=
  removeCIDR_absent s zeroV P h

/-- Witness for the amended C6 at a concrete input. -/
theorem C6_remove_absent_not_error_store_unchanged_witness :
    Store.RemoveCIDR (⟨[(⟨32, 2130706432, 16⟩, 5)]⟩ : Store Nat) 0
        ⟨32, 2130706432, 24⟩
      = (0, none, (⟨[(⟨32, 2130706432, 16⟩, 5)]⟩ : Store Nat)) :=
  C6_remove_absent_not_error_store_unchanged
    (⟨[(⟨32, 2130706432, 16⟩, 5)]⟩ : Store Nat) 0 ⟨32, 2130706432, 24⟩
    (by decide)

/-- C7: Contains(A) is true iff at least one stored prefix covers A (a
longest-prefix match, not an exact-match test), and when no stored
prefix covers A, Get(A) returns an empty list with a nil error. -/
theorem C7_contains_iff_covering_entry {V : Type} (s : Store V) (a : Addr) :
    ((Store.Contains s a).1 = true
        ↔ ∃ e ∈ s.table, CPrefix.covers e.1 a.maxPrefix = true)
    ∧ ((∀ e ∈ s.table, CPrefix.covers e.1 a.maxPrefix = false) →
        Store.Get s a = ([], none)) := by
  constructor
  · simp only [Store.Contains, Table.lookupAddr, Table.lookupPrefix,
      masked_maxPrefix]
    constructor
    · intro h
      cases hl : List.filter (fun e => CPrefix.covers e.1 a.maxPrefix) s.table with
      | nil =>
        rw [hl] at h
        exact absurd h (by simp [bestMatch])
      | cons e l =>
        have he : e ∈ List.filter (fun e => CPrefix.covers e.1 a.maxPrefix) s.table := by
          rw [hl]; exact List.mem_cons_self e l
        exact ⟨e, (List.mem_filter.1 he).1, (List.mem_filter.1 he).2⟩
    · intro h
      rcases h with ⟨e, hmem, hcov⟩
      have he : e ∈ List.filter (fun e => CPrefix.covers e.1 a.maxPrefix) s.table :=
        List.mem_filter.2 ⟨hmem, hcov⟩
      exact bestMatch_isSome_of_ne_nil _ (List.ne_nil_of_mem he)
  · intro hall
    have hnil : List.filter (fun e => CPrefix.covers e.1 (a.maxPrefix).masked) s.table
        = [] := by
      rw [masked_maxPrefix]
      refine List.filter_eq_nil_iff.2 ?_
      intro e he
      simp [hall e he]
    simp [Store.Get, Table.lookupAddr, Table.lookupPrefix, hnil, bestMatch]

/-- Witness for C7 at a concrete input: the empty store covers no
address, so Contains is false and Get returns an empty list. -/
theorem C7_contains_iff_covering_entry_witness :
    Store.Get (Store.NewStore : Store Nat) ⟨32, 167772161⟩ = ([], none) :=
  (C7_contains_iff_covering_entry (Store.NewStore : Store Nat)
    ⟨32, 167772161⟩).2 (by decide)

/-- C9: AddIPOrCIDR and RemoveIPOrCIDR (src/ipstore.go lines 64-68 and
93-97) are unimplemented stubs: for every input they return nil (resp.
(nil, nil)) and leave the store — and hence Len — completely
unchanged. -/
theorem C9_ip_or_cidr_stubs_are_noops {V A : Type} (s : Store V)
    (str : String) (v : V) (x : A) :
    Store.AddIPOrCIDR s str v = (none, s)
    ∧ Store.Len (Store.AddIPOrCIDR s str v).2 = Store.Len s
    ∧ Store.RemoveIPOrCIDR s str x = (none, none, s)
    ∧ Store.Len (Store.RemoveIPOrCIDR s str x).2.2 = Store.Len s :=
  ⟨rfl, rfl, rfl, rfl⟩

/-- C10: removing an absent key returns the zero value of V with a nil
error and no presence flag; a store holding the zero value at that very
key produces the identical observable (value, error) pair, so the two
situations are indistinguishable to the caller. -/
theorem C10_remove_absent_returns_zero_value_nil_error {V : Type}
    (s : Store V) (zeroV : V) (P : CPrefix)
    (h : Table.getExact s.table P = none) :
    (Store.RemoveCIDR s zeroV P).1 = zeroV
    ∧ (Store.RemoveCIDR s zeroV P).2.1 = none
    ∧ (Store.RemoveCIDR (⟨[(P.masked, zeroV)]⟩ : Store V) zeroV P).1 = zeroV
    ∧ (Store.RemoveCIDR (⟨[(P.masked, zeroV)]⟩ : Store V) zeroV P).2.1
        = none := by
  have habs := removeCIDR_absent s zeroV P h
  have hfind : List.find? (fun e => e.1 == P.masked)
      ([(P.masked, zeroV)] : Table V) = some (P.masked, zeroV) :=
    List.find?_cons_of_pos _ (by simp)
  have hpres : Store.RemoveCIDR (⟨[(P.masked, zeroV)]⟩ : Store V) zeroV P
      = (zeroV, none,
        ⟨List.filter (fun e2 => !(e2.1 == P.masked)) [(P.masked, zeroV)]⟩) := by
    simp only [Store.RemoveCIDR, Table.getAndDelete, hfind]
  rw [habs, hpres]
  exact ⟨rfl, rfl, rfl, rfl⟩

/-- Witness for C10 at a concrete input. -/
theorem C10_remove_absent_returns_zero_value_nil_error_witness :
    (Store.RemoveCIDR (Store.NewStore : Store Nat) 0 ⟨32, 2130706432, 24⟩).1 = 0
    ∧ (Store.RemoveCIDR (Store.NewStore : Store Nat) 0
        ⟨32, 2130706432, 24⟩).2.1 = none
    ∧ (Store.RemoveCIDR (⟨[(CPrefix.masked ⟨32, 2130706432, 24⟩, 0)]⟩ : Store Nat)
        0 ⟨32, 2130706432, 24⟩).1 = 0
    ∧ (Store.RemoveCIDR (⟨[(CPrefix.masked ⟨32, 2130706432, 24⟩, 0)]⟩ : Store Nat)
        0 ⟨32, 2130706432, 24⟩).2.1 = none :=
  C10_remove_absent_returns_zero_value_nil_error
    (Store.NewStore : Store Nat) 0 ⟨32, 2130706432, 24⟩ (by decide)

end IpStore
